import Mathlib

/-!
Verification of the SMA EMeter datagram decoder (`emeter.py`).

The embedding models the decoding core of the `EMeter` class:
`get_header` (struct.unpack_from with format ">4sHHIHHHHII"),
`extract_all_channels` (the TLV channel-list walk over the bytes after the
28-byte header), `helper_extract_act_values` (first-match measurement lookup)
and the unit-scaling getters.  A Python `bytes` buffer is a `List Byte` with
`Byte := Fin 256`; a raised `struct.error` is modelled as an error result
carrying the state accumulated so far (the Python code mutates `self.cl` in
place, so records appended before the exception survive it).
-/

abbrev Byte := Fin 256

/-- Big-endian unsigned integer value of a byte string (the semantics of the
struct formats ">I" and ">Q" applied to the corresponding bslice). -/
def beVal : List Byte → Nat
  | [] => 0
  | b :: bs => b.val * 256 ^ bs.length + beVal bs

/-- The contiguous bslice of `n` bytes of `buf` starting at `off`. -/
def bslice (buf : List Byte) (off n : Nat) : List Byte :=
  (buf.drop off).take n

/-- `struct.unpack_from`-style bounds-checked read of `n` raw bytes at `off`:
Python raises `struct.error` when fewer than `n` bytes remain, modelled as
`none`. -/
def unpackBytes (buf : List Byte) (off n : Nat) : Option (List Byte) :=
  if off + n ≤ buf.length then some (bslice buf off n) else none

/-- One field of a struct format string: `raw n` is an `ns` field (raw bytes),
`uint n` is an unsigned big-endian integer field of width `n` bytes
("H" = `uint 2`, "I" = `uint 4`, "Q" = `uint 8`). -/
inductive FmtField where
  | raw (n : Nat)
  | uint (n : Nat)
deriving DecidableEq

def FmtField.size : FmtField → Nat
  | .raw n => n
  | .uint n => n

/-- `struct.calcsize`. -/
def calcsize (fmt : List FmtField) : Nat :=
  (fmt.map FmtField.size).sum

/-- The value of one unpacked struct field. -/
inductive FieldVal where
  | bytes (bs : List Byte)
  | nat (n : Nat)
deriving DecidableEq

/-- Unpack the fields of a format one after the other, each at the cumulative
offset of the widths before it (how `struct.unpack_from` lays out ">..."). -/
def unpackFieldsFrom (buf : List Byte) : Nat → List FmtField → List FieldVal
  | _, [] => []
  | off, .raw n :: fs => .bytes (bslice buf off n) :: unpackFieldsFrom buf (off + n) fs
  | off, .uint n :: fs => .nat (beVal (bslice buf off n)) :: unpackFieldsFrom buf (off + n) fs

/-- `struct.unpack_from(fmt, buf, off)`: `none` models the raised
`struct.error` when fewer than `calcsize fmt` bytes remain at `off`. -/
def unpack_from (fmt : List FmtField) (buf : List Byte) (off : Nat) : Option (List FieldVal) :=
  if off + calcsize fmt ≤ buf.length then some (unpackFieldsFrom buf off fmt) else none

/-- `EMeter.EMETER_HEADER_FORMAT = ">4sHHIHHHHII"`. -/
def EMETER_HEADER_FORMAT : List FmtField :=
  [.raw 4, .uint 2, .uint 2, .uint 4, .uint 2, .uint 2, .uint 2, .uint 2, .uint 4, .uint 4]

/-- `EMeter.EMETER_HEADER_SIZE = struct.calcsize(EMETER_HEADER_FORMAT)`. -/
def EMETER_HEADER_SIZE : Nat := calcsize EMETER_HEADER_FORMAT

/-- The ten header fields, named as in the spec (`versionTag` is the source
dict key "4", `systemUnitId` is "SUSY", `serialNumber` is "SERNO"). -/
structure Header where
  idString : List Byte
  versionTag : Nat
  tag : Nat
  group : Nat
  length : Nat
  smaNet2 : Nat
  protocolId : Nat
  systemUnitId : Nat
  serialNumber : Nat
  ticker : Nat
deriving DecidableEq

inductive HeaderErr where
  | ShortBuffer
deriving DecidableEq

/-- `EMeter.get_header`: unpack the fixed header format at offset 0 and expose
the ten fields.  The `struct.error` raised on a buffer shorter than the
28-byte header is the `ShortBuffer` failure. -/
def get_header (buf : List Byte) : Except HeaderErr Header :=
  match unpack_from EMETER_HEADER_FORMAT buf 0 with
  | some (.bytes idb :: .nat h1 :: .nat h2 :: .nat h3 :: .nat h4 :: .nat h5 ::
      .nat h6 :: .nat h7 :: .nat h8 :: .nat h9 :: []) =>
    .ok ⟨idb, h1, h2, h3, h4, h5, h6, h7, h8, h9⟩
  | _ => .error .ShortBuffer

/-- One decoded channel record: the four OBIS tag bytes
(`CHNIDX`, `VALIDX`, `TYPEIDX`, `TARIFFIDX`) plus the decoded value
(`VALUEIDX`), as appended to `self.cl`. -/
structure Channel where
  chn : Byte
  validx : Byte
  typ : Byte
  tariff : Byte
  value : Nat
deriving DecidableEq

/-- The two `struct.error` sites of the channel walk: the 4-byte OBIS tag read
and the 4/8-byte value read. -/
inductive WalkErr where
  | TruncatedTag
  | TruncatedValue
deriving DecidableEq

/-- Outcome of the channel-list walk: the records accumulated in `self.cl`,
the final value of the loop variable `offset`, and the exception raised, if
any (`none` = the loop ended by its condition or by `break`). -/
structure WalkOut where
  cl : List Channel
  offset : Nat
  err : Option WalkErr
deriving DecidableEq

/-- The `while offset < len(self.emdat)` loop of
`EMeter.extract_all_channels`: read the 4 OBIS tag bytes, pick the value
width from the `TYPEIDX` byte (8 → ">Q", 4 → ">I", otherwise `break`), read
the value, append the record and advance `offset` by `4 + TYPEIDX`. -/
def extractLoop (buf : List Byte) (offset : Nat) (cl : List Channel) : WalkOut :=
  if h : offset < buf.length then
    match unpackBytes buf offset 4 with
    | some (c :: v :: t :: r :: []) =>
      match (if t = (8 : Byte) then some 8 else if t = (4 : Byte) then some 4 else none) with
      | none => ⟨cl, offset, none⟩
      | some n =>
        match unpackBytes buf (offset + 4) n with
        | none => ⟨cl, offset, some .TruncatedValue⟩
        | some vb => extractLoop buf (offset + 4 + t.val) (cl ++ [⟨c, v, t, r, beVal vb⟩])
    | _ => ⟨cl, offset, some .TruncatedTag⟩
  else ⟨cl, offset, none⟩
termination_by buf.length - offset
decreasing_by omega

/-- `EMeter.extract_all_channels`: walk the TLV stream starting right after
the fixed header. -/
def extract_all_channels (buf : List Byte) : WalkOut :=
  extractLoop buf EMETER_HEADER_SIZE []

/-- Measurement-index constants of the source. -/
def ALL_ACT_POWER_FROM_GRID : Byte := 1
def ALL_ACT_POWER_TO_GRID : Byte := 2
def PHASE1_VOLTAGE : Byte := 32

/-- `EMeter.helper_extract_act_values`: filter the channel list for
`TYPEIDX == 4 and VALIDX == idx`, project the value, and take element 0.
`none` models the `IndexError` the source raises when the filtered list is
empty. -/
def helper_extract_act_values (cl : List Channel) (idx : Byte) : Option Nat :=
  (((cl.filter fun v => v.typ == (4 : Byte) && v.validx == idx).map Channel.value)).head?

/-- `EMeter.get_act_pwr_all_from_grid`: unit "W", value scaled by `// 10`. -/
def get_act_pwr_all_from_grid (cl : List Channel) : Option (String × Nat) :=
  (helper_extract_act_values cl ALL_ACT_POWER_FROM_GRID).map fun v => ("W", v / 10)

/-- `EMeter.get_act_pwr_phase1_voltage`: unit "V", value scaled by `// 1000`. -/
def get_act_pwr_phase1_voltage (cl : List Channel) : Option (String × Nat) :=
  (helper_extract_act_values cl PHASE1_VOLTAGE).map fun v => ("V", v / 1000)

/-! Apparatus for stating claims about well-formed TLV streams: a `RawRec` is
one wire-format record (4 tag bytes plus the value bytes), and a stream is
encoded by concatenating the records. -/

structure RawRec where
  chn : Byte
  vidx : Byte
  typ : Byte
  tariff : Byte
  vbytes : List Byte

/-- Well-formed record: declared width 4 or 8 and exactly that many value
bytes. -/
def RawRec.wf (r : RawRec) : Prop :=
  (r.typ = (4 : Byte) ∨ r.typ = (8 : Byte)) ∧ r.vbytes.length = r.typ.val

instance (r : RawRec) : Decidable r.wf := by
  unfold RawRec.wf; infer_instance

/-- Wire encoding of one record. -/
def RawRec.encode (r : RawRec) : List Byte :=
  r.chn :: r.vidx :: r.typ :: r.tariff :: r.vbytes

/-- Wire size of one record: 4 tag bytes plus the declared width. -/
def RawRec.size (r : RawRec) : Nat := 4 + r.typ.val

/-- The channel record the walk produces for this wire record. -/
def RawRec.toChannel (r : RawRec) : Channel :=
  ⟨r.chn, r.vidx, r.typ, r.tariff, beVal r.vbytes⟩

def encodeStream (rs : List RawRec) : List Byte :=
  (rs.map RawRec.encode).flatten

def streamSize (rs : List RawRec) : Nat :=
  (rs.map RawRec.size).sum

theorem EMETER_HEADER_SIZE_eq : EMETER_HEADER_SIZE = 28 := by decide

theorem bslice_append (pre xs : List Byte) (n : Nat) :
    bslice (pre ++ xs) pre.length n = xs.take n := by
  simp [bslice]

theorem unpackBytes_append (pre xs : List Byte) (n : Nat) (h : n ≤ xs.length) :
    unpackBytes (pre ++ xs) pre.length n = some (xs.take n) := by
  have hlen : pre.length + n ≤ (pre ++ xs).length := by
    simp only [List.length_append]; omega
  simp only [unpackBytes]
  rw [if_pos hlen, bslice_append]

theorem unpackBytes_too_short (buf : List Byte) (off n : Nat)
    (h : buf.length < off + n) : unpackBytes buf off n = none := by
  simp only [unpackBytes]
  rw [if_neg (by omega)]

theorem encodeStream_cons (r : RawRec) (rs : List RawRec) :
    encodeStream (r :: rs) = r.encode ++ encodeStream rs := by
  simp [encodeStream]

theorem encodeStream_length (rs : List RawRec) (h : ∀ r ∈ rs, r.wf) :
    (encodeStream rs).length = streamSize rs := by
  induction rs with
  | nil => simp [encodeStream, streamSize]
  | cons r rs ih =>
    have hr := h r (by simp)
    have ih2 := ih (fun x hx => h x (by simp [hx]))
    simp only [encodeStream_cons, List.length_append, streamSize, List.map_cons,
      List.sum_cons] at *
    simp [RawRec.encode, RawRec.size, hr.2, ih2]
    omega

theorem extractLoop_step (r : RawRec) (hr : r.wf) (pre rest : List Byte)
    (cl : List Channel) :
    extractLoop (pre ++ (r.encode ++ rest)) pre.length cl =
      extractLoop (pre ++ (r.encode ++ rest)) (pre.length + 4 + r.typ.val)
        (cl ++ [r.toChannel]) := by
  obtain ⟨htyp, hlen⟩ := hr
  obtain ⟨c, v, t, tar, vb⟩ := r
  simp only [RawRec.encode, RawRec.toChannel] at *
  have h1 : pre.length < (pre ++ ((c :: v :: t :: tar :: vb) ++ rest)).length := by
    simp only [List.length_append, List.length_cons]; omega
  have htag : unpackBytes (pre ++ ((c :: v :: t :: tar :: vb) ++ rest)) pre.length 4
      = some [c, v, t, tar] := by
    rw [List.cons_append, List.cons_append, List.cons_append, List.cons_append,
      unpackBytes_append]
    · rfl
    · simp only [List.length_cons]; omega
  have hval : unpackBytes (pre ++ ((c :: v :: t :: tar :: vb) ++ rest))
      (pre.length + 4) t.val = some vb := by
    have hre : pre ++ ((c :: v :: t :: tar :: vb) ++ rest)
        = (pre ++ [c, v, t, tar]) ++ (vb ++ rest) := by
      simp
    have hlen4 : (pre ++ [c, v, t, tar]).length = pre.length + 4 := by
      simp
    rw [hre, ← hlen4, unpackBytes_append]
    · rw [← hlen, List.take_left]
    · rw [← hlen]; simp
  rw [extractLoop, dif_pos h1, htag]
  rcases htyp with h4 | h8
  · subst h4
    rw [show ((4 : Byte)).val = 4 from rfl] at hval
    simp only [show ((4 : Byte) = (8 : Byte)) = False from by simp, if_false,
      eq_self_iff_true, if_true, hval]
  · subst h8
    rw [show ((8 : Byte)).val = 8 from rfl] at hval
    simp only [eq_self_iff_true, if_true, hval]

theorem extractLoop_stream (rs : List RawRec) :
    ∀ (pre tl : List Byte) (cl : List Channel), (∀ r ∈ rs, r.wf) →
    extractLoop (pre ++ (encodeStream rs ++ tl)) pre.length cl =
      extractLoop (pre ++ (encodeStream rs ++ tl)) (pre.length + streamSize rs)
        (cl ++ rs.map RawRec.toChannel) := by
  induction rs with
  | nil =>
    intro pre tl cl _
    simp [encodeStream, streamSize]
  | cons r rs ih =>
    intro pre tl cl h
    have hr : r.wf := h r (by simp)
    have hbuf : pre ++ (encodeStream (r :: rs) ++ tl)
        = pre ++ (r.encode ++ (encodeStream rs ++ tl)) := by
      simp [encodeStream_cons]
    rw [hbuf, extractLoop_step r hr pre (encodeStream rs ++ tl) cl]
    have hpre : pre.length + 4 + r.typ.val = (pre ++ r.encode).length := by
      simp [RawRec.encode, hr.2]
      omega
    have hassoc : pre ++ (r.encode ++ (encodeStream rs ++ tl))
        = (pre ++ r.encode) ++ (encodeStream rs ++ tl) := by
      simp [List.append_assoc]
    rw [hpre, hassoc, ih (pre ++ r.encode) tl (cl ++ [r.toChannel])
      (fun x hx => h x (by simp [hx]))]
    have h2 : (pre ++ r.encode).length + streamSize rs
        = pre.length + streamSize (r :: rs) := by
      simp [RawRec.encode, hr.2, streamSize, RawRec.size]
      omega
    rw [h2]
    simp

theorem unpackBytes_length (buf : List Byte) (off n : Nat) (vb : List Byte)
    (h : unpackBytes buf off n = some vb) : vb.length = n := by
  simp only [unpackBytes] at h
  by_cases hc : off + n ≤ buf.length
  · rw [if_pos hc] at h
    injection h with h
    subst h
    simp [bslice]
    omega
  · rw [if_neg hc] at h
    cases h

theorem unpackBytes_some_le (buf : List Byte) (off n : Nat) (vb : List Byte)
    (h : unpackBytes buf off n = some vb) : off + n ≤ buf.length := by
  simp only [unpackBytes] at h
  by_cases hc : off + n ≤ buf.length
  · exact hc
  · rw [if_neg hc] at h
    cases h

theorem beVal_lt (bs : List Byte) : beVal bs < 256 ^ bs.length := by
  induction bs with
  | nil => simp [beVal]
  | cons b bs ih =>
    simp only [beVal, List.length_cons]
    have hb : b.val ≤ 255 := Nat.le_of_lt_succ b.isLt
    have hmul : b.val * 256 ^ bs.length ≤ 255 * 256 ^ bs.length :=
      Nat.mul_le_mul_right _ hb
    have hpow : 256 ^ (bs.length + 1) = 256 * 256 ^ bs.length := by ring
    omega

theorem extract_wellformed_stream (hdr : List Byte) (rs : List RawRec)
    (hhdr : hdr.length = 28) (hwf : ∀ r ∈ rs, r.wf) :
    extract_all_channels (hdr ++ encodeStream rs) =
      ⟨rs.map RawRec.toChannel, 28 + streamSize rs, none⟩ := by
  have hA := extractLoop_stream rs hdr [] [] hwf
  rw [List.append_nil] at hA
  have h0 : extract_all_channels (hdr ++ encodeStream rs)
      = extractLoop (hdr ++ encodeStream rs) hdr.length [] := by
    rw [extract_all_channels, EMETER_HEADER_SIZE_eq, hhdr]
  rw [h0, hA]
  have hterm : ¬ (hdr.length + streamSize rs < (hdr ++ encodeStream rs).length) := by
    simp [List.length_append, encodeStream_length rs hwf]
  rw [extractLoop, dif_neg hterm]
  simp [hhdr]

/-- C1: for a buffer whose bytes from offset 28 onward form a TLV stream of
well-formed records (4-byte tag with valueType 4 or 8, followed by exactly
that many value bytes, the buffer ending right after the last record), the
channel-list walk returns exactly those records in source order and its final
offset is 28 plus the sum of (4 + width) over the records. -/
theorem C1_wellformed_stream_decode (hdr : List Byte) (rs : List RawRec)
    (hhdr : hdr.length = 28) (hwf : ∀ r ∈ rs, r.wf) :
    extract_all_channels (hdr ++ encodeStream rs) =
      ⟨rs.map RawRec.toChannel, 28 + streamSize rs, none⟩ :=
  extract_wellformed_stream hdr rs hhdr hwf

/-- Witness for C1: a 28-byte header followed by one type-4 record with value
bytes 0,0,58,152 decodes to the single channel record with value 15000 and
final offset 36. -/
theorem C1_wellformed_stream_decode_witness :
    extract_all_channels
        (List.replicate 28 (0 : Byte) ++ encodeStream [⟨0, 1, 4, 0, [0, 0, 58, 152]⟩]) =
      ⟨[⟨0, 1, 4, 0, 15000⟩], 36, none⟩ :=
  C1_wellformed_stream_decode (List.replicate 28 0) [⟨0, 1, 4, 0, [0, 0, 58, 152]⟩]
    (by decide) (by decide)

/-- C2: for any buffer of at least 28 bytes, `get_header` succeeds and the
ten header fields are the big-endian values of the fixed layout: 4 raw
identifier bytes, then integer fields of widths 2,2,4,2,2,2,2,4,4 at the
cumulative offsets 4,6,8,12,14,16,18,20,24, in the order versionTag, tag,
group, length, smaNet2, protocolId, systemUnitId, serialNumber, ticker, with
no validation of any field value. -/
theorem C2_header_layout (buf : List Byte) (hlen : 28 ≤ buf.length) :
    get_header buf = .ok ⟨bslice buf 0 4, beVal (bslice buf 4 2),
      beVal (bslice buf 6 2), beVal (bslice buf 8 4), beVal (bslice buf 12 2),
      beVal (bslice buf 14 2), beVal (bslice buf 16 2), beVal (bslice buf 18 2),
      beVal (bslice buf 20 4), beVal (bslice buf 24 4)⟩ := by
  have h28 : calcsize EMETER_HEADER_FORMAT = 28 := EMETER_HEADER_SIZE_eq
  have hc : (0 : Nat) + calcsize EMETER_HEADER_FORMAT ≤ buf.length := by omega
  rw [get_header, unpack_from, if_pos hc]
  rfl

/-- Witness for C2: the all-zero 28-byte buffer parses to the all-zero
header. -/
theorem C2_header_layout_witness :
    get_header (List.replicate 28 (0 : Byte)) =
      .ok ⟨[0, 0, 0, 0], 0, 0, 0, 0, 0, 0, 0, 0, 0⟩ :=
  C2_header_layout (List.replicate 28 0) (by decide)

/-- C6: for any buffer shorter than 28 bytes, `get_header` fails with the
`ShortBuffer` condition (the bounds check fires before any read; no channel
data is touched). -/
theorem C6_short_header (buf : List Byte) (h : buf.length < 28) :
    get_header buf = .error .ShortBuffer := by
  have h28 : calcsize EMETER_HEADER_FORMAT = 28 := EMETER_HEADER_SIZE_eq
  have hc : ¬ ((0 : Nat) + calcsize EMETER_HEADER_FORMAT ≤ buf.length) := by omega
  rw [get_header, unpack_from, if_neg hc]

/-- Witness for C6: the empty buffer fails with `ShortBuffer`. -/
theorem C6_short_header_witness :
    get_header ([] : List Byte) = .error .ShortBuffer :=
  C6_short_header [] (by decide)

/-- C3: if after the well-formed prefix of the stream the valueType of a TLV entry
byte is neither 4 nor 8, the walk stops at that entry with no error and
returns exactly the records collected before it, whatever bytes follow. -/
theorem C3_unknown_type_stops (hdr : List Byte) (rs : List RawRec)
    (c v t r : Byte) (rest : List Byte) (hhdr : hdr.length = 28)
    (hwf : ∀ x ∈ rs, x.wf) (ht4 : t ≠ 4) (ht8 : t ≠ 8) :
    extract_all_channels (hdr ++ (encodeStream rs ++ (c :: v :: t :: r :: rest))) =
      ⟨rs.map RawRec.toChannel, 28 + streamSize rs, none⟩ := by
  have hA := extractLoop_stream rs hdr (c :: v :: t :: r :: rest) [] hwf
  have h0 : extract_all_channels (hdr ++ (encodeStream rs ++ (c :: v :: t :: r :: rest)))
      = extractLoop (hdr ++ (encodeStream rs ++ (c :: v :: t :: r :: rest))) hdr.length [] := by
    rw [extract_all_channels, EMETER_HEADER_SIZE_eq, hhdr]
  rw [h0, hA]
  have hre : hdr ++ (encodeStream rs ++ (c :: v :: t :: r :: rest))
      = (hdr ++ encodeStream rs) ++ (c :: v :: t :: r :: rest) := by
    simp
  have hL : hdr.length + streamSize rs = (hdr ++ encodeStream rs).length := by
    simp [encodeStream_length rs hwf]
  rw [hre, hL]
  have h1 : (hdr ++ encodeStream rs).length
      < ((hdr ++ encodeStream rs) ++ (c :: v :: t :: r :: rest)).length := by
    simp
  have htag : unpackBytes ((hdr ++ encodeStream rs) ++ (c :: v :: t :: r :: rest))
      (hdr ++ encodeStream rs).length 4 = some [c, v, t, r] := by
    rw [unpackBytes_append]
    · rfl
    · simp only [List.length_cons]; omega
  rw [extractLoop, dif_pos h1, htag]
  simp only [ht8, ht4, if_false]
  rw [← hL]
  simp [hhdr]

/-- Witness for C3: one good type-4 record followed by a type-0 entry decodes
to exactly that record, stopping at offset 36 without error. -/
theorem C3_unknown_type_stops_witness :
    extract_all_channels
        (List.replicate 28 (0 : Byte) ++
          (encodeStream [⟨0, 1, 4, 0, [0, 0, 58, 152]⟩] ++ (7 :: 7 :: 0 :: 7 :: [9, 9]))) =
      ⟨[⟨0, 1, 4, 0, 15000⟩], 36, none⟩ :=
  C3_unknown_type_stops (List.replicate 28 0) [⟨0, 1, 4, 0, [0, 0, 58, 152]⟩]
    7 7 0 7 [9, 9] (by decide) (by decide) (by decide) (by decide)

/-- C5: if after the well-formed prefix a TLV tag declares valueType 4 or 8
but fewer than that many bytes remain after the 4 tag bytes, the walk fails
with `TruncatedValue` and the records collected before that entry are still
in the returned state. -/
theorem C5_truncated_value (hdr : List Byte) (rs : List RawRec)
    (c v t r : Byte) (frag : List Byte) (hhdr : hdr.length = 28)
    (hwf : ∀ x ∈ rs, x.wf) (ht : t = 4 ∨ t = 8) (hfrag : frag.length < t.val) :
    extract_all_channels (hdr ++ (encodeStream rs ++ (c :: v :: t :: r :: frag))) =
      ⟨rs.map RawRec.toChannel, 28 + streamSize rs, some .TruncatedValue⟩ := by
  have hA := extractLoop_stream rs hdr (c :: v :: t :: r :: frag) [] hwf
  have h0 : extract_all_channels (hdr ++ (encodeStream rs ++ (c :: v :: t :: r :: frag)))
      = extractLoop (hdr ++ (encodeStream rs ++ (c :: v :: t :: r :: frag))) hdr.length [] := by
    rw [extract_all_channels, EMETER_HEADER_SIZE_eq, hhdr]
  rw [h0, hA]
  have hre : hdr ++ (encodeStream rs ++ (c :: v :: t :: r :: frag))
      = (hdr ++ encodeStream rs) ++ (c :: v :: t :: r :: frag) := by
    simp
  have hL : hdr.length + streamSize rs = (hdr ++ encodeStream rs).length := by
    simp [encodeStream_length rs hwf]
  rw [hre, hL]
  have h1 : (hdr ++ encodeStream rs).length
      < ((hdr ++ encodeStream rs) ++ (c :: v :: t :: r :: frag)).length := by
    simp
  have htag : unpackBytes ((hdr ++ encodeStream rs) ++ (c :: v :: t :: r :: frag))
      (hdr ++ encodeStream rs).length 4 = some [c, v, t, r] := by
    rw [unpackBytes_append]
    · rfl
    · simp only [List.length_cons]; omega
  have hvn : unpackBytes ((hdr ++ encodeStream rs) ++ (c :: v :: t :: r :: frag))
      ((hdr ++ encodeStream rs).length + 4) t.val = none := by
    apply unpackBytes_too_short
    simp only [List.length_append, List.length_cons]
    omega
  rw [extractLoop, dif_pos h1, htag]
  rcases ht with h4 | h8
  · subst h4
    rw [show ((4 : Byte)).val = 4 from rfl] at hvn
    simp only [show ((4 : Byte) = (8 : Byte)) = False from by simp, if_false,
      eq_self_iff_true, if_true, hvn]
    rw [← hL]
    simp [hhdr]
  · subst h8
    rw [show ((8 : Byte)).val = 8 from rfl] at hvn
    simp only [eq_self_iff_true, if_true, hvn]
    rw [← hL]
    simp [hhdr]

/-- Witness for C5: one good type-4 record, then a tag declaring width 8 with
only 3 value bytes left: the walk keeps the first record and fails with
`TruncatedValue`. -/
theorem C5_truncated_value_witness :
    extract_all_channels
        (List.replicate 28 (0 : Byte) ++
          (encodeStream [⟨0, 1, 4, 0, [0, 0, 58, 152]⟩] ++ (1 :: 2 :: 8 :: 0 :: [5, 5, 5]))) =
      ⟨[⟨0, 1, 4, 0, 15000⟩], 36, some .TruncatedValue⟩ :=
  C5_truncated_value (List.replicate 28 0) [⟨0, 1, 4, 0, [0, 0, 58, 152]⟩]
    1 2 8 0 [5, 5, 5] (by decide) (by decide) (by decide) (by decide)

/-- C7 counterexample: a 29-byte buffer (28-byte header plus a single
trailing byte) makes the walk enter the loop and fail on the 4-byte tag
read; the outcome is an error, not the claimed normal termination. -/
theorem C7_trailing_fragment_counterexample :
    (extract_all_channels (List.replicate 29 (0 : Byte))).err ≠ none := by
  have h1 : EMETER_HEADER_SIZE < (List.replicate 29 (0 : Byte)).length := by
    rw [EMETER_HEADER_SIZE_eq]; simp
  have htag : unpackBytes (List.replicate 29 (0 : Byte)) EMETER_HEADER_SIZE 4 = none := by
    apply unpackBytes_too_short
    rw [EMETER_HEADER_SIZE_eq]; simp
  rw [extract_all_channels, extractLoop, dif_pos h1, htag]
  simp

/-- C7 amended: the walk terminates normally (no error) only when zero bytes
remain at the current offset; when 1 to 3 bytes remain it enters the
iteration and the 4-byte tag read fails, an error stop that keeps the
records collected so far. -/
theorem C7_trailing_fragment_amended (buf : List Byte) (off : Nat) (cl : List Channel) :
    (buf.length ≤ off → extractLoop buf off cl = ⟨cl, off, none⟩) ∧
    (off < buf.length → buf.length < off + 4 →
      extractLoop buf off cl = ⟨cl, off, some .TruncatedTag⟩) := by
  constructor
  · intro h
    rw [extractLoop, dif_neg (by omega)]
  · intro h1 h2
    have htag : unpackBytes buf off 4 = none := unpackBytes_too_short buf off 4 h2
    rw [extractLoop, dif_pos h1, htag]

/-- Witness for the C7 amended theorem: on the 29-byte all-zero buffer at
offset 28 the walk stops with the tag-read error. -/
theorem C7_trailing_fragment_amended_witness :
    extractLoop (List.replicate 29 (0 : Byte)) 28 [] = ⟨[], 28, some .TruncatedTag⟩ :=
  (C7_trailing_fragment_amended (List.replicate 29 0) 28 []).2 (by decide) (by decide)

theorem extractLoop_inv (buf : List Byte) (offset : Nat) (cl : List Channel) :
    (∀ ch ∈ cl, (ch.typ = (4 : Byte) ∨ ch.typ = (8 : Byte)) ∧
        ch.value < 2 ^ (8 * ch.typ.val)) →
    ∀ ch ∈ (extractLoop buf offset cl).cl,
      (ch.typ = (4 : Byte) ∨ ch.typ = (8 : Byte)) ∧
        ch.value < 2 ^ (8 * ch.typ.val) := by
  induction offset, cl using extractLoop.induct buf with
  | case1 offset cl hoff c v t r htag hif =>
    intro h
    by_cases h8 : t = (8 : Byte)
    · subst h8
      rw [dif_pos rfl] at hif
      cases hif
    · by_cases h4 : t = (4 : Byte)
      · subst h4
        rw [dif_neg (by decide), dif_pos rfl] at hif
        cases hif
      · rw [extractLoop, dif_pos hoff, htag]
        simp only [h8, h4, if_false]
        exact h
  | case2 offset cl hoff c v t r htag n hif hvn =>
    intro h
    rw [extractLoop, dif_pos hoff, htag]
    by_cases h8 : t = (8 : Byte)
    · subst h8
      rw [dif_pos rfl] at hif
      injection hif with hn
      subst hn
      simp only [eq_self_iff_true, if_true, hvn]
      exact h
    · by_cases h4 : t = (4 : Byte)
      · subst h4
        rw [dif_neg (by decide), dif_pos rfl] at hif
        injection hif with hn
        subst hn
        simp only [show ((4 : Byte) = (8 : Byte)) = False from by simp, if_false,
          eq_self_iff_true, if_true, hvn]
        exact h
      · rw [dif_neg h8, dif_neg h4] at hif
        cases hif
  | case3 offset cl hoff c v t r htag n hif vb hvb ih =>
    intro h
    rw [extractLoop, dif_pos hoff, htag]
    have hvblen := unpackBytes_length buf (offset + 4) n vb hvb
    by_cases h8 : t = (8 : Byte)
    · subst h8
      rw [dif_pos rfl] at hif
      injection hif with hn
      subst hn
      simp only [eq_self_iff_true, if_true, hvb]
      apply ih
      intro ch hch
      rcases List.mem_append.mp hch with hch | hch
      · exact h ch hch
      · rcases List.mem_singleton.mp hch with rfl
        refine ⟨Or.inr rfl, ?_⟩
        have hlt := beVal_lt vb
        rw [hvblen] at hlt
        have h256 : (256 : Nat) ^ 8 = 2 ^ (8 * ((8 : Byte)).val) := by
          rw [show ((8 : Byte)).val = 8 from rfl]
          norm_num
        have hfin : beVal vb < 2 ^ (8 * ((8 : Byte)).val) := by omega
        exact hfin
    · by_cases h4 : t = (4 : Byte)
      · subst h4
        rw [dif_neg (by decide), dif_pos rfl] at hif
        injection hif with hn
        subst hn
        simp only [show ((4 : Byte) = (8 : Byte)) = False from by simp, if_false,
          eq_self_iff_true, if_true, hvb]
        apply ih
        intro ch hch
        rcases List.mem_append.mp hch with hch | hch
        · exact h ch hch
        · rcases List.mem_singleton.mp hch with rfl
          refine ⟨Or.inl rfl, ?_⟩
          have hlt := beVal_lt vb
          rw [hvblen] at hlt
          have h256 : (256 : Nat) ^ 4 = 2 ^ (8 * ((4 : Byte)).val) := by
            rw [show ((4 : Byte)).val = 4 from rfl]
            norm_num
          have hfin : beVal vb < 2 ^ (8 * ((4 : Byte)).val) := by omega
          exact hfin
      · rw [dif_neg h8, dif_neg h4] at hif
        cases hif
  | case4 offset cl hoff hne =>
    intro h
    rw [extractLoop, dif_pos hoff]
    cases htg : unpackBytes buf offset 4 with
    | none => exact h
    | some l =>
      rcases l with _ | ⟨c, _ | ⟨v, _ | ⟨t, _ | ⟨r, _ | ⟨x, l⟩⟩⟩⟩⟩
      · exact h
      · exact h
      · exact h
      · exact h
      · exact (hne c v t r htg).elim
      · exact h
  | case5 offset cl hoff =>
    intro h
    rw [extractLoop, dif_neg hoff]
    exact h

theorem extractLoop_count (buf : List Byte) (offset : Nat) (cl : List Channel) :
    (extractLoop buf offset cl).cl.length ≤ cl.length + (buf.length - offset) / 8 := by
  induction offset, cl using extractLoop.induct buf with
  | case1 offset cl hoff c v t r htag hif =>
    by_cases h8 : t = (8 : Byte)
    · subst h8
      rw [dif_pos rfl] at hif
      cases hif
    · by_cases h4 : t = (4 : Byte)
      · subst h4
        rw [dif_neg (by decide), dif_pos rfl] at hif
        cases hif
      · rw [extractLoop, dif_pos hoff, htag]
        simp only [h8, h4, if_false]
        show cl.length ≤ cl.length + (buf.length - offset) / 8
        omega
  | case2 offset cl hoff c v t r htag n hif hvn =>
    rw [extractLoop, dif_pos hoff, htag]
    by_cases h8 : t = (8 : Byte)
    · subst h8
      rw [dif_pos rfl] at hif
      injection hif with hn
      subst hn
      simp only [eq_self_iff_true, if_true, hvn]
      show cl.length ≤ cl.length + (buf.length - offset) / 8
      omega
    · by_cases h4 : t = (4 : Byte)
      · subst h4
        rw [dif_neg (by decide), dif_pos rfl] at hif
        injection hif with hn
        subst hn
        simp only [show ((4 : Byte) = (8 : Byte)) = False from by simp, if_false,
          eq_self_iff_true, if_true, hvn]
        show cl.length ≤ cl.length + (buf.length - offset) / 8
        omega
      · rw [dif_neg h8, dif_neg h4] at hif
        cases hif
  | case3 offset cl hoff c v t r htag n hif vb hvb ih =>
    rw [extractLoop, dif_pos hoff, htag]
    have hle := unpackBytes_some_le buf (offset + 4) n vb hvb
    by_cases h8 : t = (8 : Byte)
    · subst h8
      rw [dif_pos rfl] at hif
      injection hif with hn
      subst hn
      simp only [eq_self_iff_true, if_true, hvb]
      rw [show ((8 : Byte)).val = 8 from rfl] at ih ⊢
      have hl : (cl ++ [(⟨c, v, 8, r, beVal vb⟩ : Channel)]).length = cl.length + 1 := by
        simp
      omega
    · by_cases h4 : t = (4 : Byte)
      · subst h4
        rw [dif_neg (by decide), dif_pos rfl] at hif
        injection hif with hn
        subst hn
        simp only [show ((4 : Byte) = (8 : Byte)) = False from by simp, if_false,
          eq_self_iff_true, if_true, hvb]
        rw [show ((4 : Byte)).val = 4 from rfl] at ih ⊢
        have hl : (cl ++ [(⟨c, v, 4, r, beVal vb⟩ : Channel)]).length = cl.length + 1 := by
          simp
        omega
      · rw [dif_neg h8, dif_neg h4] at hif
        cases hif
  | case4 offset cl hoff hne =>
    rw [extractLoop, dif_pos hoff]
    cases htg : unpackBytes buf offset 4 with
    | none => exact Nat.le_add_right _ _
    | some l =>
      rcases l with _ | ⟨c, _ | ⟨v, _ | ⟨t, _ | ⟨r, _ | ⟨x, l⟩⟩⟩⟩⟩
      · exact Nat.le_add_right _ _
      · exact Nat.le_add_right _ _
      · exact Nat.le_add_right _ _
      · exact Nat.le_add_right _ _
      · exact (hne c v t r htg).elim
      · exact Nat.le_add_right _ _
  | case5 offset cl hoff =>
    rw [extractLoop, dif_neg hoff]
    exact Nat.le_add_right _ _

/-- C9: every record in the channel list produced by a completed walk has
valueType byte exactly 4 or 8, and its value is an unsigned integer strictly
below 2^(8 * valueType) (it was decoded big-endian from exactly valueType
bytes); no record with any other type byte is ever appended. -/
theorem C9_record_invariant (buf : List Byte) :
    ∀ ch ∈ (extract_all_channels buf).cl,
      (ch.typ = (4 : Byte) ∨ ch.typ = (8 : Byte)) ∧
        ch.value < 2 ^ (8 * ch.typ.val) :=
  extractLoop_inv buf EMETER_HEADER_SIZE [] (by simp)

/-- Witness for C9: the record decoded from a concrete one-record datagram
satisfies the invariant. -/
theorem C9_record_invariant_witness :
    ((⟨0, 1, 4, 0, 15000⟩ : Channel).typ = (4 : Byte) ∨
        (⟨0, 1, 4, 0, 15000⟩ : Channel).typ = (8 : Byte)) ∧
      (⟨0, 1, 4, 0, 15000⟩ : Channel).value <
        2 ^ (8 * ((⟨0, 1, 4, 0, 15000⟩ : Channel)).typ.val) :=
  C9_record_invariant
    (List.replicate 28 (0 : Byte) ++ encodeStream [⟨0, 1, 4, 0, [0, 0, 58, 152]⟩])
    ⟨0, 1, 4, 0, 15000⟩
    (by
      rw [extract_wellformed_stream (List.replicate 28 0)
        [⟨0, 1, 4, 0, [0, 0, 58, 152]⟩] (by decide) (by decide)]
      decide)

/-- C10: the channel-list walk is bounded — every appended record advances
the offset by 4 + valueType ≥ 8 bytes, so the walk makes at most
(buffer length - 28) / 8 appends and cannot run forever. -/
theorem C10_walk_bounded (buf : List Byte) :
    (extract_all_channels buf).cl.length ≤ (buf.length - EMETER_HEADER_SIZE) / 8 := by
  have h := extractLoop_count buf EMETER_HEADER_SIZE []
  simpa using h

/-- C4 (evaluation at the failing input): with no record whose valueType is 4
and whose measurementIndex is the requested one, the filtered list is empty,
so the `[...][0]` of the source indexes out of bounds (modelled `none` — in the
Python source this raises an unhandled IndexError instead of reporting a
MeasurementNotFound condition); on duplicates the first match in sequence
order is taken. -/
theorem C4_lookup_missing_crashes :
    helper_extract_act_values [] ALL_ACT_POWER_FROM_GRID = none ∧
    helper_extract_act_values [⟨0, 2, 4, 0, 7⟩, ⟨0, 1, 8, 0, 9⟩]
      ALL_ACT_POWER_FROM_GRID = none ∧
    helper_extract_act_values [⟨0, 1, 4, 0, 10⟩, ⟨0, 1, 4, 0, 99⟩]
      ALL_ACT_POWER_FROM_GRID = some 10 := by
  decide

/-- C8: the getters scale the first matching raw value by the fixed
per-index divisor with truncating integer division: measurement index 1
yields unit "W" and value // 10 (15000 becomes 1500); measurement index 32
yields unit "V" and value // 1000 (230125 becomes 230). -/
theorem C8_unit_scaling :
    (∀ (c t : Byte) (v : Nat),
        get_act_pwr_all_from_grid [⟨c, 1, 4, t, v⟩] = some ("W", v / 10)) ∧
    (∀ (c t : Byte) (v : Nat),
        get_act_pwr_phase1_voltage [⟨c, 32, 4, t, v⟩] = some ("V", v / 1000)) ∧
    get_act_pwr_all_from_grid [⟨0, 1, 4, 0, 15000⟩] = some ("W", 1500) ∧
    get_act_pwr_phase1_voltage [⟨0, 32, 4, 0, 230125⟩] = some ("V", 230) := by
  refine ⟨fun c t v => ?_, fun c t v => ?_, ?_, ?_⟩
  · simp [get_act_pwr_all_from_grid, helper_extract_act_values,
      ALL_ACT_POWER_FROM_GRID, List.filter]
  · simp [get_act_pwr_phase1_voltage, helper_extract_act_values,
      PHASE1_VOLTAGE, List.filter]
  · rfl
  · rfl
